import Mathlib

/-!
# Verification of the `json-ez` document abstraction

A shallow embedding of the repository's two source files:

* `src/lib.rs` — the `Json` wrapper around `HashMap<String, serde_json::Value>`
  with `new` / `add` / `get`, the `NotFound` error struct, and the
  `inline!` / `serialise!` / `deserialise!` macros;
* `src/error.rs` — the (unused) two-variant `Error` enum.

The dynamic value layer (`serde_json::Value`, `json!`, `from_value`) and the
textual codec (`serde_json::to_string` / `from_str`) are external collaborators
of the crate; they are modelled from the spec's description of their contract
(section 6 of the design document): integers for numbers, a tagged union for
values, and a plain JSON text rendering with escape sequences.
-/

set_option maxHeartbeats 1000000

namespace JsonEz

/-- Modelled from the spec: the dynamic value representation supplied by the
external structured-value library (`serde_json::value::Value`): a tagged union
over null, boolean, number, string, ordered sequence, and object.  Numbers are
taken as integers; the spec leaves integer-versus-float round-tripping to the
external collaborator and the repository only exercises integral numbers. -/
inductive Value where
  | null : Value
  | bool (b : Bool) : Value
  | num (n : Int) : Value
  | str (s : String) : Value
  | arr (elems : List Value) : Value
  | obj (fields : List (String × Value)) : Value

/-- Key lookup in the field storage (`HashMap::get`). -/
def findKV (k : String) : List (String × Value) → Option Value
  | [] => none
  | (k', v) :: rest => if k' = k then some v else findKV k rest

/-- Key insertion in the field storage (`HashMap::insert`): an existing
binding for the key is replaced; otherwise the pair is appended. -/
def insertKV (k : String) (v : Value) : List (String × Value) → List (String × Value)
  | [] => [(k, v)]
  | (k', v') :: rest => if k' = k then (k, v) :: rest else (k', v') :: insertKV k v rest

/-- Whether the key is bound in the field storage (`HashMap::contains_key`). -/
def keyOccursB (k : String) : List (String × Value) → Bool
  | [] => false
  | (k', _) :: rest => k' = k || keyOccursB k rest

/-- All keys distinct: the `HashMap` representation invariant of the storage. -/
def noDupKeysB : List (String × Value) → Bool
  | [] => true
  | (k, _) :: rest => !keyOccursB k rest && noDupKeysB rest

/-- How many bindings the storage holds for a key (1 or 0 for a `HashMap`). -/
def countKey (k : String) : List (String × Value) → Nat
  | [] => 0
  | (k', _) :: rest => (if k' = k then 1 else 0) + countKey k rest

theorem findKV_insertKV_self (k : String) (v : Value) :
    ∀ l : List (String × Value), findKV k (insertKV k v l) = some v := by
  intro l
  induction l with
  | nil => simp [insertKV, findKV]
  | cons p rest ih =>
    obtain ⟨k', v'⟩ := p
    by_cases h : k' = k
    · simp [insertKV, findKV, h]
    · simp [insertKV, findKV, h, ih]

theorem findKV_insertKV_other (k k' : String) (v : Value) (hne : k' ≠ k) :
    ∀ l : List (String × Value), findKV k' (insertKV k v l) = findKV k' l := by
  have hne' : k ≠ k' := Ne.symm hne
  intro l
  induction l with
  | nil => simp [insertKV, findKV, hne']
  | cons p rest ih =>
    obtain ⟨k0, v0⟩ := p
    by_cases h : k0 = k
    · subst h
      simp [insertKV, findKV, hne']
    · simp [insertKV, findKV, h, ih]

theorem keyOccursB_insertKV_self (k : String) (v : Value) :
    ∀ l : List (String × Value), keyOccursB k (insertKV k v l) = true := by
  intro l
  induction l with
  | nil => simp [insertKV, keyOccursB]
  | cons p rest ih =>
    obtain ⟨k0, v0⟩ := p
    by_cases h : k0 = k
    · simp [insertKV, keyOccursB, h]
    · simp [insertKV, keyOccursB, h, ih]

theorem keyOccursB_insertKV_other (k k' : String) (v : Value) (hne : k' ≠ k) :
    ∀ l : List (String × Value), keyOccursB k' (insertKV k v l) = keyOccursB k' l := by
  have hne' : k ≠ k' := Ne.symm hne
  intro l
  induction l with
  | nil => simp [insertKV, keyOccursB, hne']
  | cons p rest ih =>
    obtain ⟨k0, v0⟩ := p
    by_cases h : k0 = k
    · subst h
      simp [insertKV, keyOccursB, hne']
    · simp [insertKV, keyOccursB, h, ih]

theorem length_insertKV_occurs (k : String) (v : Value) :
    ∀ l : List (String × Value), keyOccursB k l = true →
      (insertKV k v l).length = l.length := by
  intro l
  induction l with
  | nil => intro h; simp [keyOccursB] at h
  | cons p rest ih =>
    obtain ⟨k0, v0⟩ := p
    intro hocc
    by_cases h : k0 = k
    · simp [insertKV, h]
    · simp only [keyOccursB, Bool.or_eq_true, decide_eq_true_eq] at hocc
      rcases hocc with h' | h'
      · exact absurd h' h
      · simp [insertKV, h, ih h']

theorem countKey_insertKV_occurs (k : String) (v : Value) :
    ∀ l : List (String × Value), keyOccursB k l = true →
      countKey k (insertKV k v l) = countKey k l := by
  intro l
  induction l with
  | nil => intro h; simp [keyOccursB] at h
  | cons p rest ih =>
    obtain ⟨k0, v0⟩ := p
    intro hocc
    by_cases h : k0 = k
    · simp [insertKV, countKey, h]
    · simp only [keyOccursB, Bool.or_eq_true, decide_eq_true_eq] at hocc
      rcases hocc with h' | h'
      · exact absurd h' h
      · simp [insertKV, countKey, h, ih h']

theorem countKey_zero_of_fresh (k : String) :
    ∀ l : List (String × Value), keyOccursB k l = false → countKey k l = 0 := by
  intro l
  induction l with
  | nil => intro _; rfl
  | cons p rest ih =>
    obtain ⟨k0, v0⟩ := p
    intro h
    simp only [keyOccursB, Bool.or_eq_false_iff, decide_eq_false_iff_not] at h
    simp [countKey, h.1, ih h.2]

theorem countKey_one_of_noDup (k : String) :
    ∀ l : List (String × Value), noDupKeysB l = true → keyOccursB k l = true →
      countKey k l = 1 := by
  intro l
  induction l with
  | nil => intro _ h; simp [keyOccursB] at h
  | cons p rest ih =>
    obtain ⟨k0, v0⟩ := p
    intro hnd hocc
    simp only [noDupKeysB, Bool.and_eq_true, Bool.not_eq_true'] at hnd
    by_cases h : k0 = k
    · subst h
      simp [countKey, countKey_zero_of_fresh k0 rest hnd.1]
    · simp only [keyOccursB, Bool.or_eq_true, decide_eq_true_eq] at hocc
      rcases hocc with h' | h'
      · exact absurd h' h
      · simp [countKey, h, ih hnd.2 h']

theorem insertKV_fresh (k : String) (v : Value) :
    ∀ l : List (String × Value), keyOccursB k l = false →
      insertKV k v l = l ++ [(k, v)] := by
  intro l
  induction l with
  | nil => intro _; rfl
  | cons p rest ih =>
    obtain ⟨k0, v0⟩ := p
    intro h
    simp only [keyOccursB, Bool.or_eq_false_iff, decide_eq_false_iff_not] at h
    simp [insertKV, h.1, ih h.2]

theorem noDupKeysB_insertKV (k : String) (v : Value) :
    ∀ l : List (String × Value), noDupKeysB l = true →
      noDupKeysB (insertKV k v l) = true := by
  intro l
  induction l with
  | nil => intro _; simp [insertKV, noDupKeysB, keyOccursB]
  | cons p rest ih =>
    obtain ⟨k0, v0⟩ := p
    intro hnd
    simp only [noDupKeysB, Bool.and_eq_true, Bool.not_eq_true'] at hnd
    by_cases h : k0 = k
    · subst h
      simp [insertKV, noDupKeysB, hnd.1, hnd.2]
    · simp only [insertKV, if_neg h, noDupKeysB, Bool.and_eq_true, Bool.not_eq_true']
      exact ⟨by rw [keyOccursB_insertKV_other k k0 v h]; exact hnd.1, ih hnd.2⟩

/-!
## The textual rendering (`serialise!`, i.e. `serde_json::to_string`)

Modelled from the spec: `encode(doc) -> string` is the external collaborator's
canonical textual rendering — a compact JSON text with `"` and `\` escaped and
control characters written as `\u00XX` escapes.
-/

/-- The decimal digit character for `d < 10` (and `9` above that). -/
def digitChar : Nat → Char
  | 0 => '0'
  | 1 => '1'
  | 2 => '2'
  | 3 => '3'
  | 4 => '4'
  | 5 => '5'
  | 6 => '6'
  | 7 => '7'
  | 8 => '8'
  | _ => '9'

/-- The lower-case hexadecimal digit character for `d < 16` (and `f` above). -/
def hexOfNibble : Nat → Char
  | 0 => '0'
  | 1 => '1'
  | 2 => '2'
  | 3 => '3'
  | 4 => '4'
  | 5 => '5'
  | 6 => '6'
  | 7 => '7'
  | 8 => '8'
  | 9 => '9'
  | 10 => 'a'
  | 11 => 'b'
  | 12 => 'c'
  | 13 => 'd'
  | 14 => 'e'
  | _ => 'f'

/-- Decimal digit characters, most significant first; the first argument is
recursion fuel (any bound strictly above the number renders it fully). -/
def natToCharsAux : Nat → Nat → List Char
  | 0, _ => []
  | fuel + 1, n =>
    if n < 10 then [digitChar n]
    else natToCharsAux fuel (n / 10) ++ [digitChar (n % 10)]

/-- Decimal digit characters of a natural number, most significant first. -/
def natToChars (n : Nat) : List Char := natToCharsAux (n + 1) n

/-- Decimal rendering of an integer: optional minus sign, then digits. -/
def renderInt (n : Int) : List Char :=
  if n < 0 then '-' :: natToChars n.natAbs else natToChars n.natAbs

/-- JSON escaping of one character inside a string literal. -/
def escapeChar (c : Char) : List Char :=
  if c = '"' then ['\\', '"']
  else if c = '\\' then ['\\', '\\']
  else if c.toNat < 32 then
    ['\\', 'u', '0', '0', hexOfNibble (c.toNat / 16), hexOfNibble (c.toNat % 16)]
  else [c]

/-- JSON escaping of a whole character run. -/
def escapeChars : List Char → List Char
  | [] => []
  | c :: cs => escapeChar c ++ escapeChars cs

mutual

/-- Compact textual rendering of a dynamic value (the wire format of
`serde_json::to_string`, restricted to the integral numbers of the model). -/
def render : Value → List Char
  | .num n => renderInt n
  | .str s => '"' :: (escapeChars s.data ++ ['"'])
  | .bool false => ['f', 'a', 'l', 's', 'e']
  | .bool true => ['t', 'r', 'u', 'e']
  | .null => ['n', 'u', 'l', 'l']
  | .arr es => '[' :: (renderItems es ++ [']'])
  | .obj fs => '{' :: (renderEntries fs ++ ['}'])

/-- Comma-separated rendering of array elements. -/
def renderItems : List Value → List Char
  | [] => []
  | [v] => render v
  | v :: vs => render v ++ ',' :: renderItems vs

/-- Rendering of one `"key":value` object entry. -/
def renderEntry (kv : String × Value) : List Char :=
  '"' :: (escapeChars kv.1.data ++ '"' :: ':' :: render kv.2)

/-- Comma-separated rendering of object entries. -/
def renderEntries : List (String × Value) → List Char
  | [] => []
  | [kv] => renderEntry kv
  | kv :: fs => renderEntry kv ++ ',' :: renderEntries fs

end

/-!
## The document type (`Json` in `src/lib.rs`)
-/

/-- The document: a wrapper around the field storage
(`pub struct Json { json_data: HashMap<String, Value> }`). -/
structure Json where
  json_data : List (String × Value)

/-- `Json::new`: the empty document. -/
def Json.new : Json := ⟨[]⟩

/-- `serialise!`: render a document to a JSON string
(`serde_json::to_string`, modelled from the spec as the external codec). -/
def serialise (j : Json) : String := String.mk (render (.obj j.json_data))

/-!
## Static values and the conversion layer (`serde` capabilities)

`add<V: Serialize>` accepts any value convertible into the dynamic
representation; `get<T: DeserializeOwned>` reconstructs a static value from
the stored dynamic one.  `Static` enumerates the capabilities the spec names
(primitives, strings, sequences of convertible values, nested documents);
`StaticTy` is the target type of a `get::<T>` call.
-/

/-- Modelled from the spec: a statically typed value of one of the accepted
input capabilities (booleans, integers, strings, sequences, nested
documents).  The `json!` conversion of such a value is total. -/
inductive Static where
  | bool (b : Bool) : Static
  | int (n : Int) : Static
  | str (s : String) : Static
  | list (xs : List Static) : Static
  | doc (j : Json) : Static

/-- A target type `T` for `get::<T>`. -/
inductive StaticTy where
  | bool : StaticTy
  | int : StaticTy
  | str : StaticTy
  | list (t : StaticTy) : StaticTy
  | doc : StaticTy

mutual

/-- The static value inhabits the given target type (sequences are
homogeneous, as Rust's `Vec<T>` is). -/
def Static.hasTy : Static → StaticTy → Bool
  | .bool _, .bool => true
  | .int _, .int => true
  | .str _, .str => true
  | .list xs, .list t => listHasTy xs t
  | .doc _, .doc => true
  | _, _ => false

/-- Every element of the list inhabits the given target type. -/
def listHasTy : List Static → StaticTy → Bool
  | [], _ => true
  | x :: xs, t => x.hasTy t && listHasTy xs t

end

mutual

/-- Modelled from the spec: conversion of a static value into the dynamic
representation (`json!(v)`, i.e. `serde_json::to_value` for the accepted
capabilities — total). -/
def Static.toValue : Static → Value
  | .bool b => .bool b
  | .int n => .num n
  | .str s => .str s
  | .list xs => .arr (listToValue xs)
  | .doc j => .obj j.json_data

/-- Elementwise conversion of a sequence into the dynamic representation. -/
def listToValue : List Static → List Value
  | [] => []
  | x :: xs => x.toValue :: listToValue xs

end

mutual

/-- Modelled from the spec: typed reconstruction of a static value from a
dynamic one (`serde_json::from_value::<T>`): succeeds exactly when the
dynamic value's shape matches the target type, with no coercion. -/
def fromValueAt : StaticTy → Value → Option Static
  | .bool, .bool b => some (.bool b)
  | .int, .num n => some (.int n)
  | .str, .str s => some (.str s)
  | .list t, .arr es =>
    match fromListAt t es with
    | some xs => some (.list xs)
    | none => none
  | .doc, .obj fs => some (.doc ⟨fs⟩)
  | _, _ => none

/-- Elementwise reconstruction of a sequence, failing if any element does. -/
def fromListAt : StaticTy → List Value → Option (List Static)
  | _, [] => some []
  | t, v :: vs =>
    match fromValueAt t v, fromListAt t vs with
    | some x, some xs => some (x :: xs)
    | _, _ => none

end

/-!
## The operations (`Json::add`, `Json::get`) and the error values
-/

/-- `Json::add`: convert the value into the dynamic representation and store
it under the key, replacing any prior binding
(`self.json_data.insert(k.into(), json!(v))`). -/
def Json.add (j : Json) (k : String) (v : Static) : Json :=
  ⟨insertKV k v.toValue j.json_data⟩

/-- The `NotFound` error struct of `src/lib.rs`: the missing key and the
rendered snapshot of the document. -/
structure NotFound where
  key : String
  json : String

/-- `NotFound::new`: capture the key and serialise the document at
construction time (`json: serialise!(json)?`). -/
def NotFound.new (key : String) (j : Json) : NotFound :=
  ⟨key, serialise j⟩

/-- The observable outcome of `Json::get`: a typed value (`Ok`), a returned
`NotFound` error (`Err`), or the process fault raised by
`from_value(value.clone()).unwrap()` when the conversion fails. -/
inductive GetOutcome (α : Type) where
  | ok (val : α) : GetOutcome α
  | err (e : NotFound) : GetOutcome α
  | faulted : GetOutcome α

/-- `Json::get::<T>`: look the key up; if absent return `Err(NotFound)` built
from the key and the document snapshot; otherwise run the conversion of the
stored value to `T`, and `.unwrap()` its result — a conversion failure is a
panic, not a returned error. -/
def Json.get {α : Type} (j : Json) (conv : Value → Option α) (k : String) :
    GetOutcome α :=
  match findKV k j.json_data with
  | none => .err (NotFound.new k j)
  | some v =>
    match conv v with
    | some t => .ok t
    | none => .faulted

/-- The embedding of a `&self` method call: `get` borrows the document
immutably, so the call returns the outcome together with the (unchanged)
document the caller retains. -/
def Json.getCall {α : Type} (j : Json) (conv : Value → Option α) (k : String) :
    GetOutcome α × Json :=
  (j.get conv k, j)

/-- The `Error` enum of `src/error.rs`: `NotFound(String, String)` and
`CannotConvert(String)`.  No function of the crate constructs either
variant; in particular `Json::get` never returns `CannotConvert`. -/
inductive ErrorEnum where
  | notFoundE (key doc : String) : ErrorEnum
  | cannotConvert (valueSnapshot : String) : ErrorEnum

/-- The `inline!` macro: its expansion is `Json::new()` followed by one
`add` call per `key => value` pair, in order. -/
def inline (pairs : List (String × Static)) : Json :=
  pairs.foldl (fun m kv => m.add kv.1 kv.2) Json.new

/-- The construction the spec describes `inline!` as equivalent to: start
from a document and call `add` for each pair in order. -/
def buildByAdds : Json → List (String × Static) → Json
  | j, [] => j
  | j, (k, v) :: ps => buildByAdds (j.add k v) ps

/-!
## Conversion round-trip: `from_value` inverts `json!` on well-typed values
-/

theorem fromValueAt_toValue_aux :
    ∀ (n : Nat) (v : Static), sizeOf v ≤ n → ∀ t : StaticTy,
      Static.hasTy v t = true → fromValueAt t (Static.toValue v) = some v := by
  intro n
  induction n with
  | zero =>
    intro v hv
    cases v <;> simp at hv
  | succ n ih =>
    intro v hv t ht
    cases v with
    | bool b => cases t <;> simp_all [Static.hasTy, Static.toValue, fromValueAt]
    | int m => cases t <;> simp_all [Static.hasTy, Static.toValue, fromValueAt]
    | str s => cases t <;> simp_all [Static.hasTy, Static.toValue, fromValueAt]
    | doc j =>
      cases t <;> simp_all [Static.hasTy]
      rfl
    | list xs =>
      cases t with
      | list t' =>
        have hxs : ∀ y ∈ xs, sizeOf y ≤ n := by
          intro y hy
          have hlt := List.sizeOf_lt_of_mem hy
          simp only [Static.list.sizeOf_spec] at hv
          omega
        have hmain : ∀ ys : List Static, listHasTy ys t' = true →
            (∀ y ∈ ys, sizeOf y ≤ n) →
            fromListAt t' (listToValue ys) = some ys := by
          intro ys
          induction ys with
          | nil => intro _ _; rfl
          | cons y ys ihy =>
            intro hty hsz
            simp only [listHasTy, Bool.and_eq_true] at hty
            have h1 := ih y (hsz y (by simp)) t' hty.1
            have h2 := ihy hty.2 (fun z hz => hsz z (by simp [hz]))
            simp [listToValue, fromListAt, h1, h2]
        have hty' : listHasTy xs t' = true := by
          simpa [Static.hasTy] using ht
        simp [Static.toValue, fromValueAt, hmain xs hty' hxs]
      | bool => simp [Static.hasTy] at ht
      | int => simp [Static.hasTy] at ht
      | str => simp [Static.hasTy] at ht
      | doc => simp [Static.hasTy] at ht

theorem fromValueAt_toValue (v : Static) (t : StaticTy)
    (h : Static.hasTy v t = true) :
    fromValueAt t (Static.toValue v) = some v :=
  fromValueAt_toValue_aux (sizeOf v) v (Nat.le_refl _) t h

/-!
## The claims about `add` and `get`
-/

theorem get_add_eq_ok (j : Json) (k : String) (v : Static)
    (t : StaticTy) (h : Static.hasTy v t = true) :
    (j.add k v).get (fromValueAt t) k = .ok v := by
  unfold Json.get Json.add
  simp [findKV_insertKV_self, fromValueAt_toValue v t h]

/-- C2. For all keys `k` and convertible values `v`: after `d.add(k, v)`,
`d.get::<typeof(v)>(k)` succeeds and returns a value equal to `v`. -/
theorem add_get_returns_added (j : Json) (k : String) (v : Static)
    (t : StaticTy) (h : Static.hasTy v t = true) :
    (j.add k v).get (fromValueAt t) k = .ok v :=
  get_add_eq_ok j k v t h

theorem add_get_returns_added_witness :
    Static.hasTy (.int 42) .int = true ∧
      (Json.new.add ("n") (.int 42)).get (fromValueAt .int) ("n")
        = .ok (.int 42) :=
  ⟨by decide, add_get_returns_added Json.new ("n") (.int 42) .int (by decide)⟩

/-- C3. For every document `d` and key `k` not present in `d`, `d.get::<T>(k)`
fails with a `NotFound` error whose reported key equals `k` and which carries
the document snapshot rendered at failure time. -/
theorem get_missing_key {α : Type} (j : Json) (k : String)
    (conv : Value → Option α) (h : findKV k j.json_data = none) :
    j.get conv k = .err ⟨k, serialise j⟩ := by
  unfold Json.get
  simp [h, NotFound.new]

theorem get_missing_key_witness :
    findKV ("missing") Json.new.json_data = none ∧
      Json.new.get (fromValueAt .str) ("missing")
        = .err ⟨"missing", serialise Json.new⟩ :=
  ⟨rfl, get_missing_key Json.new ("missing") (fromValueAt .str) rfl⟩

/-- C1. The code, evaluated at the spec's own example: after `d.add("n", 42)`,
`d.get::<bool>("n")` does not return an `Err` carrying a conversion error —
the `.unwrap()` inside `get` makes the failed conversion an uncatchable
fault, and `Error::CannotConvert` of `src/error.rs` is never constructed. -/
theorem get_mismatch_faults :
    (Json.new.add ("n") (.int 42)).get (fromValueAt .bool) ("n")
      = .faulted := rfl

/-- C4. Overwrite semantics: after `d.add(k, v1)` then `d.add(k, v2)`,
`d.get(k)` returns `v2` and never `v1`, the storage size does not grow, and
the number of entries under `k` does not increase. -/
theorem add_overwrite (j : Json) (k : String) (v1 v2 : Static)
    (t : StaticTy) (h2 : Static.hasTy v2 t = true) :
    ((j.add k v1).add k v2).get (fromValueAt t) k = .ok v2 ∧
    (v1 ≠ v2 → ((j.add k v1).add k v2).get (fromValueAt t) k ≠ .ok v1) ∧
    ((j.add k v1).add k v2).json_data.length = (j.add k v1).json_data.length ∧
    countKey k ((j.add k v1).add k v2).json_data
      = countKey k (j.add k v1).json_data := by
  have hget := get_add_eq_ok (j.add k v1) k v2 t h2
  have hocc : keyOccursB k (j.add k v1).json_data = true :=
    keyOccursB_insertKV_self k (Static.toValue v1) j.json_data
  refine ⟨hget, ?_, ?_, ?_⟩
  · intro hne hv1
    rw [hget] at hv1
    exact hne (GetOutcome.ok.inj hv1).symm
  · exact length_insertKV_occurs k (Static.toValue v2) _ hocc
  · exact countKey_insertKV_occurs k (Static.toValue v2) _ hocc

theorem add_overwrite_witness :
    Static.hasTy (.int 7) .int = true ∧
      (((Json.new.add ("k") (.bool true)).add ("k") (.int 7)).get
          (fromValueAt .int) ("k") = .ok (.int 7) ∧
        (Static.bool true ≠ Static.int 7 →
          ((Json.new.add ("k") (.bool true)).add ("k") (.int 7)).get
            (fromValueAt .int) ("k") ≠ .ok (.bool true)) ∧
        ((Json.new.add ("k") (.bool true)).add ("k") (.int 7)).json_data.length
          = (Json.new.add ("k") (.bool true)).json_data.length ∧
        countKey ("k")
            (((Json.new.add ("k") (.bool true)).add ("k") (.int 7)).json_data)
          = countKey ("k") ((Json.new.add ("k") (.bool true)).json_data)) :=
  ⟨by decide, add_overwrite Json.new ("k") (.bool true) (.int 7) .int (by decide)⟩

/-- C6. `add` never fails: for every document, key and convertible value the
call is total — it returns a well-formed document (unique keys preserved)
with the converted value stored, and its type has no error outcome. -/
theorem add_never_fails (j : Json) (k : String) (v : Static)
    (h : noDupKeysB j.json_data = true) :
    noDupKeysB ((j.add k v).json_data) = true ∧
    findKV k (j.add k v).json_data = some (Static.toValue v) :=
  ⟨noDupKeysB_insertKV k (Static.toValue v) j.json_data h,
    findKV_insertKV_self k (Static.toValue v) j.json_data⟩

theorem add_never_fails_witness :
    noDupKeysB Json.new.json_data = true ∧
      (noDupKeysB ((Json.new.add ("a") (.str "x")).json_data) = true ∧
        findKV ("a") (Json.new.add ("a") (.str "x")).json_data
          = some (Static.toValue (.str "x"))) :=
  ⟨rfl, add_never_fails Json.new ("a") (.str "x") rfl⟩

/-- C7. Builder equivalence: the document built by the `inline!` expansion
equals the document built by `new()` followed by `add` for each pair in
order, and for a duplicate key the last pair's value wins. -/
theorem inline_equiv_adds :
    (∀ pairs : List (String × Static), inline pairs = buildByAdds Json.new pairs) ∧
    (∀ (ps : List (String × Static)) (k : String) (v : Static),
      findKV k (inline (ps ++ [(k, v)])).json_data = some (Static.toValue v)) := by
  have hfold : ∀ (ps : List (String × Static)) (j : Json),
      ps.foldl (fun m kv => m.add kv.1 kv.2) j = buildByAdds j ps := by
    intro ps
    induction ps with
    | nil => intro j; rfl
    | cons p ps ih =>
      intro j
      obtain ⟨k, v⟩ := p
      simp [List.foldl_cons, buildByAdds, ih]
  constructor
  · intro pairs
    exact hfold pairs Json.new
  · intro ps k v
    show findKV k ((ps ++ [(k, v)]).foldl (fun m kv => m.add kv.1 kv.2) Json.new).json_data = _
    rw [List.foldl_append]
    exact findKV_insertKV_self k (Static.toValue v) _

/-- C8. Error snapshots are self-contained: the snapshot inside a `NotFound`
error is the document rendering captured when the error is constructed; a
later mutation of the document leaves the error value describing the old
state, not the new one. -/
theorem error_snapshot_self_contained {α : Type} (j : Json) (k k' : String)
    (conv : Value → Option α) (v' : Static)
    (hmiss : findKV k j.json_data = none)
    (hchanged : serialise (j.add k' v') ≠ serialise j) :
    ∃ e : NotFound, j.get conv k = .err e ∧ e.json = serialise j ∧
      e.json ≠ serialise (j.add k' v') := by
  refine ⟨⟨k, serialise j⟩, ?_, rfl, fun h => hchanged h.symm⟩
  unfold Json.get
  simp [hmiss, NotFound.new]

theorem error_snapshot_self_contained_witness :
    findKV ("x") Json.new.json_data = none ∧
      serialise (Json.new.add ("a") (.bool true)) ≠ serialise Json.new ∧
      (∃ e : NotFound, Json.new.get (fromValueAt .bool) ("x") = .err e ∧
        e.json = serialise Json.new ∧
        e.json ≠ serialise (Json.new.add ("a") (.bool true))) :=
  ⟨rfl, by decide,
    error_snapshot_self_contained Json.new ("x") ("a") (fromValueAt .bool)
      (.bool true) rfl (by decide)⟩

/-- C10. `get` never mutates the document: under the state-passing embedding
of the `&self` call, the document after the call maps every key to the same
value as before, is the same document, and a repeated identical call yields
an equal outcome. -/
theorem get_does_not_mutate {α : Type} (j : Json) (conv : Value → Option α)
    (k : String) :
    (∀ k', findKV k' ((j.getCall conv k).2).json_data = findKV k' j.json_data) ∧
    (j.getCall conv k).2 = j ∧
    (j.getCall conv k).1 = ((j.getCall conv k).2).get conv k :=
  ⟨fun _ => rfl, rfl, rfl⟩

/-!
## The textual decoder (`deserialise!`, i.e. `serde_json::from_str::<Json>`)

Modelled from the spec: `decode(text) -> Result<Document, DecodeError>` parses
a JSON text.  The parser recurses on a fuel counter (one unit per value
nesting level, always sufficient when fuel exceeds the input length), accepts
the escape sequences of the JSON grammar, and reads numbers as integers.
Insignificant whitespace is not modelled; duplicate keys in an object are
collected in textual order and resolved last-wins when the top level is
gathered into the document's field storage, as the `HashMap` collector does.
-/

/-- Whether a character run starts with something other than a decimal digit
(so it cannot extend a rendered number).  Every delimiter that can follow a
number in a rendered document — `,`, `]`, `}`, end of input — qualifies. -/
def headNotDigit : List Char → Bool
  | [] => true
  | c :: _ => !c.isDigit

/-- Split a leading run of decimal digits from the input. -/
def splitDigits : List Char → List Char × List Char
  | [] => ([], [])
  | c :: cs =>
    if c.isDigit then
      let p := splitDigits cs
      (c :: p.1, p.2)
    else ([], c :: cs)

/-- The numeric value of a run of decimal digit characters. -/
def digitsToNat (ds : List Char) : Nat :=
  ds.foldl (fun a c => a * 10 + (c.toNat - 48)) 0

/-- Parse a nonempty run of decimal digits into a natural number. -/
def parseNatChars (cs : List Char) : Option (Nat × List Char) :=
  let p := splitDigits cs
  if p.1.isEmpty then none else some (digitsToNat p.1, p.2)

/-- The numeric value of a hexadecimal digit character. -/
def hexToNat (c : Char) : Nat :=
  if c.toNat ≥ 97 then c.toNat - 87
  else if c.toNat ≥ 65 then c.toNat - 55
  else c.toNat - 48

/-- Whether the character is a hexadecimal digit. -/
def isHexCh (c : Char) : Bool :=
  c.isDigit || ('a' ≤ c && c ≤ 'f') || ('A' ≤ c && c ≤ 'F')

/-- The single-character escape sequences of the JSON grammar. -/
def unescapeChar : Char → Option Char
  | '/' => some '/'
  | 'b' => some (Char.ofNat 8)
  | 'f' => some (Char.ofNat 12)
  | 'n' => some (Char.ofNat 10)
  | 'r' => some (Char.ofNat 13)
  | 't' => some (Char.ofNat 9)
  | '"' => some '"'
  | '\\' => some '\\'
  | _ => none

/-- Parse the body of a string literal, after its opening quote, up to and
including its closing quote; yields the unescaped characters. -/
def parseStringBody : List Char → Option (List Char × List Char)
  | [] => none
  | c :: rest =>
    if c = '"' then some ([], rest)
    else if c = '\\' then
      match rest with
      | [] => none
      | e :: rest1 =>
        if e = 'u' then
          match rest1 with
          | a :: b :: x :: y :: rest2 =>
            if isHexCh a && isHexCh b && isHexCh x && isHexCh y then
              match parseStringBody rest2 with
              | some (s, r) =>
                some (Char.ofNat
                  (((hexToNat a * 16 + hexToNat b) * 16 + hexToNat x) * 16
                    + hexToNat y) :: s, r)
              | none => none
            else none
          | _ => none
        else
          match unescapeChar e with
          | some u =>
            match parseStringBody rest1 with
            | some (s, r) => some (u :: s, r)
            | none => none
          | none => none
    else
      match parseStringBody rest with
      | some (s, r) => some (c :: s, r)
      | none => none

/-- Consume an expected literal character run. -/
def dropLit : List Char → List Char → Option (List Char)
  | [], cs => some cs
  | _ :: _, [] => none
  | p :: ps, c :: cs => if c = p then dropLit ps cs else none

mutual

/-- Parse one JSON value.  Fuel decreases at each nesting step; with fuel
above the input length the parser is total on the grammar it accepts. -/
def parseValue : Nat → List Char → Option (Value × List Char)
  | 0, _ => none
  | _ + 1, [] => none
  | fuel + 1, c :: rest =>
    if c = 'n' then
      match dropLit ['u', 'l', 'l'] rest with
      | some r => some (.null, r)
      | none => none
    else if c = 't' then
      match dropLit ['r', 'u', 'e'] rest with
      | some r => some (.bool true, r)
      | none => none
    else if c = 'f' then
      match dropLit ['a', 'l', 's', 'e'] rest with
      | some r => some (.bool false, r)
      | none => none
    else if c = '"' then
      match parseStringBody rest with
      | some (s, r) => some (.str (String.mk s), r)
      | none => none
    else if c = '[' then
      if rest.head? = some ']' then some (.arr [], rest.tail)
      else
        match parseItems fuel rest with
        | some (es, r) => some (.arr es, r)
        | none => none
    else if c = '{' then
      if rest.head? = some '}' then some (.obj [], rest.tail)
      else
        match parseEntries fuel rest with
        | some (fs, r) => some (.obj fs, r)
        | none => none
    else if c = '-' then
      match parseNatChars rest with
      | some (m, r) => some (.num (-(m : Int)), r)
      | none => none
    else if c.isDigit then
      match parseNatChars (c :: rest) with
      | some (m, r) => some (.num (m : Int), r)
      | none => none
    else none

/-- Parse one or more comma-separated array elements and the closing `]`. -/
def parseItems : Nat → List Char → Option (List Value × List Char)
  | 0, _ => none
  | fuel + 1, cs =>
    match parseValue fuel cs with
    | none => none
    | some (v, rest) =>
      match rest with
      | ',' :: rest1 =>
        match parseItems fuel rest1 with
        | some (vs, r) => some (v :: vs, r)
        | none => none
      | ']' :: rest1 => some ([v], rest1)
      | _ => none

/-- Parse one or more comma-separated object entries and the closing brace. -/
def parseEntries : Nat → List Char → Option (List (String × Value) × List Char)
  | 0, _ => none
  | fuel + 1, cs =>
    match cs with
    | '"' :: cs1 =>
      match parseStringBody cs1 with
      | none => none
      | some (kcs, rest1) =>
        match rest1 with
        | ':' :: rest2 =>
          match parseValue fuel rest2 with
          | none => none
          | some (v, rest3) =>
            match rest3 with
            | ',' :: rest4 =>
              match parseEntries fuel rest4 with
              | some (fs, r) => some ((String.mk kcs, v) :: fs, r)
              | none => none
            | '}' :: rest4 => some ([(String.mk kcs, v)], rest4)
            | _ => none
        | _ => none
    | _ => none

end

/-- Gather parsed top-level entries into the field storage, in textual order,
later duplicates overwriting earlier ones (the `HashMap` collector of the
`#[serde(flatten)]` field). -/
def fromPairs (fs : List (String × Value)) : List (String × Value) :=
  fs.foldl (fun acc kv => insertKV kv.1 kv.2 acc) []

/-- Parse a complete JSON text into one value consuming all input. -/
def parseText (s : String) : Option (Value × List Char) :=
  parseValue (s.data.length + 1) s.data

/-- `deserialise!`: parse a JSON text into a document.  Succeeds exactly when
the whole input is one JSON value whose top level is an object. -/
def deserialise (s : String) : Option Json :=
  match parseText s with
  | some (.obj fs, []) => some ⟨fromPairs fs⟩
  | _ => none

/-- Whether a dynamic value is an object. -/
def Value.isObjB : Value → Bool
  | .obj _ => true
  | _ => false

mutual

/-- Well-formedness of a dynamic value: object keys are distinct at every
nesting level.  Every value built by `add` from well-formed parts satisfies
it; it is the invariant of the `HashMap`/`serde_json::Map` storages. -/
def Value.wfB : Value → Bool
  | .null => true
  | .bool _ => true
  | .num _ => true
  | .str _ => true
  | .arr es => itemsWfB es
  | .obj fs => noDupKeysB fs && entriesWfB fs

/-- Well-formedness of every element of an array. -/
def itemsWfB : List Value → Bool
  | [] => true
  | v :: vs => v.wfB && itemsWfB vs

/-- Well-formedness of every value of an object's entries. -/
def entriesWfB : List (String × Value) → Bool
  | [] => true
  | kv :: fs => kv.2.wfB && entriesWfB fs

end

/-- Well-formedness of a document: its storage, viewed as an object value, is
well-formed. -/
def Json.wfDoc (j : Json) : Bool := Value.wfB (.obj j.json_data)

/-!
## Decimal and hexadecimal digit lemmas
-/

theorem digitChar_spec (d : Nat) (h : d < 10) :
    (digitChar d).isDigit = true ∧ (digitChar d).toNat - 48 = d := by
  interval_cases d <;> exact ⟨by decide, by decide⟩

theorem natToCharsAux_ne_nil :
    ∀ fuel n : Nat, n < fuel → natToCharsAux fuel n ≠ [] := by
  intro fuel
  induction fuel with
  | zero => intro n h; omega
  | succ f ih =>
    intro n h
    by_cases h10 : n < 10
    · simp [natToCharsAux, h10]
    · simp [natToCharsAux, h10]

theorem natToCharsAux_digits :
    ∀ fuel n : Nat, n < fuel → ∀ c ∈ natToCharsAux fuel n, c.isDigit = true := by
  intro fuel
  induction fuel with
  | zero => intro n h; omega
  | succ f ih =>
    intro n h c hc
    by_cases h10 : n < 10
    · simp only [natToCharsAux, if_pos h10, List.mem_singleton] at hc
      subst hc
      exact (digitChar_spec n h10).1
    · simp only [natToCharsAux, if_neg h10, List.mem_append,
        List.mem_singleton] at hc
      rcases hc with hc | hc
      · exact ih (n / 10) (by omega) c hc
      · subst hc
        exact (digitChar_spec (n % 10) (by omega)).1

theorem natToCharsAux_fold :
    ∀ fuel n : Nat, n < fuel → ∀ a : Nat,
      List.foldl (fun x c => x * 10 + (c.toNat - 48)) a (natToCharsAux fuel n)
        = a * 10 ^ (natToCharsAux fuel n).length + n := by
  intro fuel
  induction fuel with
  | zero => intro n h; omega
  | succ f ih =>
    intro n h a
    by_cases h10 : n < 10
    · simp only [natToCharsAux, if_pos h10, List.foldl_cons, List.foldl_nil,
        List.length_singleton, pow_one]
      rw [(digitChar_spec n h10).2]
    · simp only [natToCharsAux, if_neg h10, List.foldl_append,
        List.foldl_cons, List.foldl_nil, List.length_append,
        List.length_singleton]
      rw [ih (n / 10) (by omega) a, (digitChar_spec (n % 10) (by omega)).2,
        pow_succ]
      have hdm : 10 * (n / 10) + n % 10 = n := Nat.div_add_mod n 10
      ring_nf
      omega

theorem natToChars_ne_nil (n : Nat) : natToChars n ≠ [] :=
  natToCharsAux_ne_nil (n + 1) n (by omega)

theorem natToChars_digits (n : Nat) : ∀ c ∈ natToChars n, c.isDigit = true :=
  natToCharsAux_digits (n + 1) n (by omega)

theorem digitsToNat_natToChars (n : Nat) : digitsToNat (natToChars n) = n := by
  have h := natToCharsAux_fold (n + 1) n (by omega) 0
  simpa [digitsToNat, natToChars] using h

theorem splitDigits_stop (cs : List Char) (h : headNotDigit cs = true) :
    splitDigits cs = ([], cs) := by
  cases cs with
  | nil => rfl
  | cons c t =>
    simp only [headNotDigit, Bool.not_eq_true'] at h
    simp [splitDigits, h]

theorem splitDigits_run (ds : List Char) (hds : ∀ c ∈ ds, c.isDigit = true)
    (rest : List Char) (hrest : headNotDigit rest = true) :
    splitDigits (ds ++ rest) = (ds, rest) := by
  induction ds with
  | nil => simpa using splitDigits_stop rest hrest
  | cons c t ih =>
    have hc : c.isDigit = true := hds c (by simp)
    have ht := ih (fun x hx => hds x (by simp [hx]))
    simp [splitDigits, hc, ht]

theorem parseNatChars_natToChars (n : Nat) (rest : List Char)
    (hrest : headNotDigit rest = true) :
    parseNatChars (natToChars n ++ rest) = some (n, rest) := by
  unfold parseNatChars
  rw [splitDigits_run (natToChars n) (natToChars_digits n) rest hrest]
  simp [List.isEmpty_iff, natToChars_ne_nil n, digitsToNat_natToChars]

theorem isDigit_excludes (c : Char) (h : c.isDigit = true) :
    c ≠ 'n' ∧ c ≠ 't' ∧ c ≠ 'f' ∧ c ≠ '"' ∧ c ≠ '[' ∧ c ≠ '{' ∧ c ≠ '-' ∧
      c ≠ ']' ∧ c ≠ '}' := by
  refine ⟨?_, ?_, ?_, ?_, ?_, ?_, ?_, ?_, ?_⟩ <;>
    (intro h'; subst h'; exact absurd h (by decide))

theorem hexOfNibble_spec (d : Nat) (h : d < 16) :
    isHexCh (hexOfNibble d) = true ∧ hexToNat (hexOfNibble d) = d := by
  interval_cases d <;> exact ⟨by decide, by decide⟩

/-!
## The string codec: parsing inverts escaping
-/

theorem parseStringBody_escapeChar (c : Char) (tail : List Char) :
    parseStringBody (escapeChar c ++ tail)
      = match parseStringBody tail with
        | some (s, r) => some (c :: s, r)
        | none => none := by
  by_cases hq : c = '"'
  · subst hq
    rw [show escapeChar '"' = ['\\', '"'] from rfl, List.cons_append,
      List.cons_append, List.nil_append, parseStringBody.eq_def]
    simp [unescapeChar]
  · by_cases hb : c = '\\'
    · subst hb
      rw [show escapeChar '\\' = ['\\', '\\'] from rfl, List.cons_append,
        List.cons_append, List.nil_append, parseStringBody.eq_def]
      simp [unescapeChar]
    · by_cases hlt : c.toNat < 32
      · have h1 := hexOfNibble_spec (c.toNat / 16) (by omega)
        have h2 := hexOfNibble_spec (c.toNat % 16) (by omega)
        have harith :
            ((hexToNat '0' * 16 + hexToNat '0') * 16
                + hexToNat (hexOfNibble (c.toNat / 16))) * 16
              + hexToNat (hexOfNibble (c.toNat % 16)) = c.toNat := by
          rw [h1.2, h2.2]
          have h0 : hexToNat '0' = 0 := by decide
          rw [h0]
          omega
        simp only [escapeChar, if_neg hq, if_neg hb, if_pos hlt,
          List.cons_append, List.nil_append]
        rw [parseStringBody.eq_def]
        simp [h1.1, h2.1, harith, Char.ofNat_toNat]
        intro habs
        exact absurd habs (by decide)
      · simp only [escapeChar, if_neg hq, if_neg hb, if_neg hlt,
          List.cons_append, List.nil_append]
        rw [parseStringBody.eq_def]
        simp [hq, hb]

theorem parseStringBody_escapeChars (cs : List Char) : ∀ rest : List Char,
    parseStringBody (escapeChars cs ++ '"' :: rest) = some (cs, rest) := by
  induction cs with
  | nil =>
    intro rest
    rw [escapeChars, List.nil_append, parseStringBody.eq_def]
    simp
  | cons c cs ih =>
    intro rest
    rw [escapeChars, List.append_assoc, parseStringBody_escapeChar, ih rest]

/-!
## Head and length facts about the rendering
-/

theorem render_head (v : Value) :
    ∃ c t, render v = c :: t ∧ c ≠ ']' ∧ c ≠ '}' := by
  cases v with
  | null => exact ⟨'n', _, rfl, by decide, by decide⟩
  | bool b =>
    cases b with
    | true => exact ⟨'t', _, rfl, by decide, by decide⟩
    | false => exact ⟨'f', _, rfl, by decide, by decide⟩
  | str s => exact ⟨'"', _, rfl, by decide, by decide⟩
  | arr es => exact ⟨'[', _, rfl, by decide, by decide⟩
  | obj fs => exact ⟨'{', _, rfl, by decide, by decide⟩
  | num n =>
    by_cases hn : n < 0
    · exact ⟨'-', natToChars n.natAbs, by simp [render, renderInt, hn],
        by decide, by decide⟩
    · obtain ⟨c, t, hct⟩ : ∃ c t, natToChars n.natAbs = c :: t := by
        cases h : natToChars n.natAbs with
        | nil => exact absurd h (natToChars_ne_nil _)
        | cons c t => exact ⟨c, t, rfl⟩
      have hc : c.isDigit = true :=
        natToChars_digits n.natAbs c (hct ▸ List.mem_cons_self c t)
      obtain ⟨_, _, _, _, _, _, _, h8, h9⟩ := isDigit_excludes c hc
      exact ⟨c, t, by simp [render, renderInt, hn, hct], h8, h9⟩

theorem render_length_pos (v : Value) : 0 < (render v).length := by
  obtain ⟨c, t, h, _, _⟩ := render_head v
  simp [h]

/-!
## The codec round trip
-/

theorem parse_render_num (fuel : Nat) (n : Int) (rest : List Char)
    (hrest : headNotDigit rest = true) :
    parseValue (fuel + 1) (render (.num n) ++ rest) = some (.num n, rest) := by
  by_cases hn : n < 0
  · rw [show render (.num n) ++ rest = '-' :: (natToChars n.natAbs ++ rest) from by
      simp [render, renderInt, hn]]
    simp [parseValue, parseNatChars_natToChars n.natAbs rest hrest]
    rw [abs_of_neg hn, neg_neg]
  · obtain ⟨c, t, hct⟩ : ∃ c t, natToChars n.natAbs = c :: t := by
      cases h : natToChars n.natAbs with
      | nil => exact absurd h (natToChars_ne_nil _)
      | cons c t => exact ⟨c, t, rfl⟩
    have hc : c.isDigit = true :=
      natToChars_digits n.natAbs c (hct ▸ List.mem_cons_self c t)
    obtain ⟨e1, e2, e3, e4, e5, e6, e7, _, _⟩ := isDigit_excludes c hc
    rw [show render (.num n) ++ rest = c :: (t ++ rest) from by
      simp [render, renderInt, hn, hct]]
    simp only [parseValue, if_neg e1, if_neg e2, if_neg e3, if_neg e4,
      if_neg e5, if_neg e6, if_neg e7, if_pos hc]
    rw [show c :: (t ++ rest) = natToChars n.natAbs ++ rest from by
      rw [hct, List.cons_append]]
    rw [parseNatChars_natToChars n.natAbs rest hrest]
    have habs : (n.natAbs : Int) = n := by omega
    simp [habs]

mutual

theorem parse_render : ∀ (fuel : Nat) (v : Value) (rest : List Char),
    (render v).length ≤ fuel → headNotDigit rest = true →
    parseValue fuel (render v ++ rest) = some (v, rest)
  | 0, v, _, hf, _ => by
    have hp := render_length_pos v
    omega
  | fuel + 1, .null, rest, _, _ => by
    simp [render, parseValue, dropLit]
  | fuel + 1, .bool b, rest, _, _ => by
    cases b <;> simp [render, parseValue, dropLit]
  | fuel + 1, .num n, rest, _, hrest => parse_render_num fuel n rest hrest
  | fuel + 1, .str s, rest, _, _ => by
    rw [show render (.str s) ++ rest
        = '"' :: (escapeChars s.data ++ '"' :: rest) from by simp [render]]
    simp [parseValue, parseStringBody_escapeChars]
  | fuel + 1, .arr [], rest, _, _ => by
    simp [render, renderItems, parseValue]
  | fuel + 1, .arr (e :: es), rest, hf, _ => by
    have hlen : (renderItems (e :: es)).length < fuel := by
      simp only [render, List.length_cons, List.length_append,
        List.length_singleton] at hf
      omega
    obtain ⟨c, t, hct, hc1, _⟩ := render_head e
    have hhead : (renderItems (e :: es) ++ ']' :: rest).head? = some c := by
      cases es with
      | nil => simp [renderItems, hct]
      | cons e2 es2 => simp [renderItems, hct]
    have hrec := parse_renderItems fuel e es rest hlen
    rw [show render (.arr (e :: es)) ++ rest
        = '[' :: (renderItems (e :: es) ++ ']' :: rest) from by simp [render]]
    simp [parseValue, hhead, hc1, hrec]
  | fuel + 1, .obj [], rest, _, _ => by
    simp [render, renderEntries, parseValue]
  | fuel + 1, .obj (kv :: fs), rest, hf, _ => by
    have hlen : (renderEntries (kv :: fs)).length < fuel := by
      simp only [render, List.length_cons, List.length_append,
        List.length_singleton] at hf
      omega
    have hhead : (renderEntries (kv :: fs) ++ '}' :: rest).head? = some '"' := by
      cases fs with
      | nil => simp [renderEntries, renderEntry]
      | cons kv2 fs2 => simp [renderEntries, renderEntry]
    have hrec := parse_renderEntries fuel kv fs rest hlen
    rw [show render (.obj (kv :: fs)) ++ rest
        = '{' :: (renderEntries (kv :: fs) ++ '}' :: rest) from by simp [render]]
    simp [parseValue, hhead, hrec]

theorem parse_renderItems : ∀ (fuel : Nat) (e : Value) (es : List Value)
    (rest : List Char), (renderItems (e :: es)).length < fuel →
    parseItems fuel (renderItems (e :: es) ++ ']' :: rest) = some (e :: es, rest)
  | 0, _, _, _, hlen => absurd hlen (by omega)
  | fuel + 1, e, [], rest, hlen => by
    have hfe : (render e).length ≤ fuel := by
      simp only [renderItems] at hlen
      omega
    have hv := parse_render fuel e (']' :: rest) hfe rfl
    rw [show renderItems [e] ++ ']' :: rest = render e ++ ']' :: rest from by
      simp [renderItems]]
    simp [parseItems, hv]
  | fuel + 1, e, e2 :: es2, rest, hlen => by
    have hlen' := hlen
    simp only [renderItems, List.length_append, List.length_cons] at hlen'
    have hpos := render_length_pos e
    have hfe : (render e).length ≤ fuel := by omega
    have hlen2 : (renderItems (e2 :: es2)).length < fuel := by omega
    have hv := parse_render fuel e
      (',' :: (renderItems (e2 :: es2) ++ ']' :: rest)) hfe rfl
    have hrec := parse_renderItems fuel e2 es2 rest hlen2
    rw [show renderItems (e :: e2 :: es2) ++ ']' :: rest
        = render e ++ (',' :: (renderItems (e2 :: es2) ++ ']' :: rest)) from by
      simp [renderItems]]
    simp [parseItems, hv, hrec]

theorem parse_renderEntries : ∀ (fuel : Nat) (kv : String × Value)
    (fs : List (String × Value)) (rest : List Char),
    (renderEntries (kv :: fs)).length < fuel →
    parseEntries fuel (renderEntries (kv :: fs) ++ '}' :: rest)
      = some (kv :: fs, rest)
  | 0, _, _, _, hlen => absurd hlen (by omega)
  | fuel + 1, (k, v), [], rest, hlen => by
    have hlen' := hlen
    simp only [renderEntries, renderEntry, List.length_cons,
      List.length_append] at hlen'
    have hfv : (render v).length ≤ fuel := by omega
    have hv := parse_render fuel v ('}' :: rest) hfv rfl
    rw [show renderEntries [(k, v)] ++ '}' :: rest
        = '"' :: (escapeChars k.data ++ '"' :: (':' :: (render v ++ '}' :: rest)))
        from by simp [renderEntries, renderEntry]]
    simp [parseEntries, parseStringBody_escapeChars, hv]
  | fuel + 1, (k, v), kv2 :: fs2, rest, hlen => by
    have hlen' := hlen
    simp only [renderEntries, renderEntry, List.length_cons,
      List.length_append] at hlen'
    have hfv : (render v).length ≤ fuel := by omega
    have hlen2 : (renderEntries (kv2 :: fs2)).length < fuel := by omega
    have hv := parse_render fuel v
      (',' :: (renderEntries (kv2 :: fs2) ++ '}' :: rest)) hfv rfl
    have hrec := parse_renderEntries fuel kv2 fs2 rest hlen2
    rw [show renderEntries ((k, v) :: kv2 :: fs2) ++ '}' :: rest
        = '"' :: (escapeChars k.data ++ '"' :: (':' :: (render v
            ++ (',' :: (renderEntries (kv2 :: fs2) ++ '}' :: rest)))))
        from by simp [renderEntries, renderEntry]]
    simp [parseEntries, parseStringBody_escapeChars, hv, hrec]

end

theorem keyOccursB_append (k : String) :
    ∀ l1 l2 : List (String × Value),
      keyOccursB k (l1 ++ l2) = (keyOccursB k l1 || keyOccursB k l2) := by
  intro l1 l2
  induction l1 with
  | nil => simp [keyOccursB]
  | cons p rest ih =>
    obtain ⟨k0, v0⟩ := p
    simp [keyOccursB, ih, Bool.or_assoc]

theorem foldl_insertKV_fresh :
    ∀ l acc : List (String × Value), noDupKeysB l = true →
      (∀ k, keyOccursB k l = true → keyOccursB k acc = false) →
      l.foldl (fun a kv => insertKV kv.1 kv.2 a) acc = acc ++ l := by
  intro l
  induction l with
  | nil => intro acc _ _; simp
  | cons kv l ih =>
    obtain ⟨k, v⟩ := kv
    intro acc hnd hdisj
    simp only [noDupKeysB, Bool.and_eq_true, Bool.not_eq_true'] at hnd
    have hkfresh : keyOccursB k acc = false := by
      exact hdisj k (by simp [keyOccursB])
    rw [List.foldl_cons]
    show List.foldl _ (insertKV k v acc) l = _
    rw [insertKV_fresh k v acc hkfresh]
    rw [ih (acc ++ [(k, v)]) hnd.2 ?_]
    · simp
    · intro k' hk'
      have h1 : keyOccursB k' acc = false := by
        exact hdisj k' (by simp [keyOccursB, hk'])
      have h2 : ¬(k = k') := by
        intro he
        subst he
        rw [hk'] at hnd
        exact absurd hnd.1 (by decide)
      rw [keyOccursB_append]
      simp [h1, keyOccursB, h2]

theorem fromPairs_noDup (l : List (String × Value)) (h : noDupKeysB l = true) :
    fromPairs l = l := by
  have hmain := foldl_insertKV_fresh l [] h (fun k _ => rfl)
  simpa [fromPairs] using hmain

/-!
## The claims about the codec
-/

/-- C5. Round trip: for every well-formed document (as every document built
from `add` is), deserialising its serialisation succeeds and yields a
document observationally equal to it — every key maps to an equal value in
both directions. -/
theorem deserialise_serialise (j : Json) (h : j.wfDoc = true) :
    ∃ j' : Json, deserialise (serialise j) = some j' ∧
      ∀ k, findKV k j'.json_data = findKV k j.json_data := by
  have hnd : noDupKeysB j.json_data = true := by
    simp only [Json.wfDoc, Value.wfB, Bool.and_eq_true] at h
    exact h.1
  have hparse : parseText (serialise j) = some (.obj j.json_data, []) := by
    have hdata : (serialise j).data = render (.obj j.json_data) := rfl
    rw [parseText, hdata]
    have hmain := parse_render ((render (.obj j.json_data)).length + 1)
      (.obj j.json_data) [] (by omega) rfl
    simpa using hmain
  refine ⟨⟨fromPairs j.json_data⟩, ?_, ?_⟩
  · rw [deserialise, hparse]
  · intro k
    rw [fromPairs_noDup j.json_data hnd]

theorem deserialise_serialise_witness :
    Json.wfDoc (((Json.new.add ("title") (.str "X")).add ("read")
        (.bool true)).add ("year") (.int 2005)) = true ∧
      (∃ j' : Json,
        deserialise (serialise (((Json.new.add ("title") (.str "X")).add
            ("read") (.bool true)).add ("year") (.int 2005))) = some j' ∧
        ∀ k, findKV k j'.json_data
          = findKV k (((Json.new.add ("title") (.str "X")).add ("read")
              (.bool true)).add ("year") (.int 2005)).json_data) :=
  ⟨by decide,
    deserialise_serialise (((Json.new.add ("title") (.str "X")).add ("read")
      (.bool true)).add ("year") (.int 2005)) (by decide)⟩

/-- C9. `deserialise!` accepts only top-level objects: when the input parses
in full as a JSON value, deserialisation succeeds exactly when that value is
an object, in which case the document holds the object's entries. -/
theorem deserialise_only_objects (s : String) (v : Value)
    (h : parseText s = some (v, [])) :
    ((deserialise s).isSome = true ↔ v.isObjB = true) ∧
    ∀ fs, v = .obj fs → deserialise s = some ⟨fromPairs fs⟩ := by
  constructor
  · rw [deserialise, h]
    cases v <;> simp [Value.isObjB]
  · intro fs hv
    subst hv
    rw [deserialise, h]

theorem deserialise_only_objects_witness :
    parseText ("[1]") = some (.arr [.num 1], []) ∧
      (((deserialise ("[1]")).isSome = true
          ↔ (Value.arr [.num 1]).isObjB = true) ∧
        ∀ fs, Value.arr [.num 1] = .obj fs
          → deserialise ("[1]") = some ⟨fromPairs fs⟩) :=
  ⟨rfl, deserialise_only_objects ("[1]") (.arr [.num 1]) rfl⟩

end JsonEz
